import Mathlib

/-!
Verification of the `bstree` package: a binary search tree over an arbitrary
value type, ordered by two caller-supplied boolean predicates `smaller` and
`larger`.  The Go code is embedded shallowly: a `*_Node` pointer is a `BTree`
(with `nil` for the nil pointer), the `Tree` struct keeps its root, its two
predicates and its size counter, and the side-effecting `Visitor` of
`Traverse` is modelled by returning the list of visited values in visit
order.  Mutating functions return the updated tree.
-/

namespace BstreeVerify

/-- A `*_Node`: either the nil pointer or a node with a value and two
child pointers (`bstree.go`, `_Node`). -/
inductive BTree (α : Type) : Type where
  | nil : BTree α
  | node : α → BTree α → BTree α → BTree α
deriving DecidableEq, Repr

/-- The `Tree` struct (`bstree.go`): root pointer, the two ordering
predicates, and the size counter.  The `sync.RWMutex` field has no
content in a sequential model and is omitted. -/
structure Tree (α : Type) : Type where
  root : BTree α
  smaller : α → α → Bool
  larger : α → α → Bool
  size : Nat

variable {α : Type}

/-- `IntSmaller` from `bstree.go` (Go `int` modelled as `Int`). -/
def IntSmaller (value other : Int) : Bool := decide (value < other)

/-- `IntLarger` from `bstree.go`. -/
def IntLarger (value other : Int) : Bool := decide (value > other)

/-- `New` creates an initialized tree (`bstree.go`). -/
def New (smaller larger : α → α → Bool) : Tree α :=
  ⟨BTree.nil, smaller, larger, 0⟩

/-- `Size` returns the size counter (`bstree.go`). -/
def Tree.Size (tree : Tree α) : Nat := tree.size

/-- `doPreOrder` (`bstree.go`): visit node, recurse left, recurse right. -/
def doPreOrder : BTree α → List α
  | BTree.nil => []
  | BTree.node v l r => v :: (doPreOrder l ++ doPreOrder r)

/-- `doInOrder` (`bstree.go`): recurse left, visit node, recurse right. -/
def doInOrder : BTree α → List α
  | BTree.nil => []
  | BTree.node v l r => doInOrder l ++ v :: doInOrder r

/-- `doPostOrder` (`bstree.go`): recurse left, recurse right, visit node. -/
def doPostOrder : BTree α → List α
  | BTree.nil => []
  | BTree.node v l r => doPostOrder l ++ doPostOrder r ++ [v]

/-- Number of nodes of a subtree (used as the termination measure of the
level-order queue loop, and as "reachable node count" for the size
invariant). -/
def bcount : BTree α → Nat
  | BTree.nil => 0
  | BTree.node _ l r => 1 + bcount l + bcount r

/-- `if node.left != nil { queue.PushBack(node.left) }` — the enqueue of a
child pointer in `doLevelOrder`, as the (possibly empty) list it appends
to the queue. -/
def enq : BTree α → List (BTree α)
  | BTree.nil => []
  | BTree.node v l r => [BTree.node v l r]

/-- The `for queue.Len() > 0` loop of `doLevelOrder` (`bstree.go`):
dequeue the front node, visit its value, enqueue its non-nil children
left first. -/
def doLevelOrderLoop : List (BTree α) → List α
  | [] => []
  | BTree.nil :: rest => doLevelOrderLoop rest
  | BTree.node v l r :: rest =>
      v :: doLevelOrderLoop (rest ++ enq l ++ enq r)
termination_by queue => ((queue.map bcount).sum, queue.length)
decreasing_by
· apply Prod.Lex.right' <;> simp [bcount]
· apply Prod.Lex.left
  cases l <;> cases r <;> simp [enq, bcount] <;> omega

/-- `doLevelOrder` (`bstree.go`): breadth-first traversal seeded with the
root when it is non-nil. -/
def doLevelOrder : BTree α → List α
  | BTree.nil => []
  | BTree.node v l r => doLevelOrderLoop [BTree.node v l r]

/-- The `Traversal` enumeration (`bstree.go`): `type Traversal int32` with
`PreOrder, InOrder, PostOrder, LevelOrder` produced by `iota` starting
after a blank slot.  Modelled as `Int`, so unrecognized values exist. -/
def PreOrder : Int := 1

/-- `InOrder` traversal constant (`bstree.go`). -/
def InOrder : Int := 2

/-- `PostOrder` traversal constant (`bstree.go`). -/
def PostOrder : Int := 3

/-- `LevelOrder` traversal constant (`bstree.go`). -/
def LevelOrder : Int := 4

/-- `Traverse` (`bstree.go`): dispatch on the traversal constant; the
`switch` has no default case, so any other value does nothing.  The
visitor is modelled by the returned list of visited values. -/
def Tree.Traverse (tree : Tree α) (traversal : Int) : List α :=
  if traversal = PreOrder then doPreOrder tree.root
  else if traversal = InOrder then doInOrder tree.root
  else if traversal = PostOrder then doPostOrder tree.root
  else if traversal = LevelOrder then doLevelOrder tree.root
  else []

/-- `doExists` (`bstree.go`): descend left where `smaller`, right where
`larger`; `true` once neither holds; `false` at a nil pointer. -/
def doExists (smaller larger : α → α → Bool) : BTree α → α → Bool
  | BTree.nil, _ => false
  | BTree.node w l r, value =>
      if smaller value w then doExists smaller larger l value
      else if larger value w then doExists smaller larger r value
      else true

/-- `Exists` (`bstree.go`). -/
def Tree.Exists (tree : Tree α) (value : α) : Bool :=
  doExists tree.smaller tree.larger tree.root value

/-- `doInsert` (`bstree.go`): descend like `doExists`; at the first nil
child slot on the descent create a new node and report `true`; report
`false` when neither predicate holds.  The Go code mutates the node in
place; here the rebuilt subtree is returned with the success flag. -/
def doInsert (smaller larger : α → α → Bool) : BTree α → α → BTree α × Bool
  | BTree.nil, _ => (BTree.nil, false)
  | BTree.node w l r, value =>
      if smaller value w then
        match l with
        | BTree.nil => (BTree.node w (BTree.node value BTree.nil BTree.nil) r, true)
        | BTree.node wl ll rl =>
            let p := doInsert smaller larger (BTree.node wl ll rl) value
            (BTree.node w p.1 r, p.2)
      else if larger value w then
        match r with
        | BTree.nil => (BTree.node w l (BTree.node value BTree.nil BTree.nil), true)
        | BTree.node wr lr rr =>
            let p := doInsert smaller larger (BTree.node wr lr rr) value
            (BTree.node w l p.1, p.2)
      else (BTree.node w l r, false)

/-- `Insert` (`bstree.go`): an empty tree gets the value as its root;
otherwise `doInsert` runs from the root and the size counter is bumped
exactly when it succeeds. -/
def Tree.Insert (tree : Tree α) (value : α) : Tree α × Bool :=
  match tree.root with
  | BTree.nil =>
      ({ tree with root := BTree.node value BTree.nil BTree.nil,
                   size := tree.size + 1 }, true)
  | BTree.node w l r =>
      let p := doInsert tree.smaller tree.larger (BTree.node w l r) value
      if p.2 then ({ tree with root := p.1, size := tree.size + 1 }, true)
      else ({ tree with root := p.1 }, false)

/-- `Minimum`'s descent (`bstree.go`): from a non-nil node follow `left`
pointers while they are non-nil and return the value reached; `nil` root
yields the explicit empty result (Go returns a nil interface). -/
def doMinimum : BTree α → Option α
  | BTree.nil => none
  | BTree.node v l _ =>
      match l with
      | BTree.nil => some v
      | BTree.node w ll rl => doMinimum (BTree.node w ll rl)

/-- `Minimum` (`bstree.go`). -/
def Tree.Minimum (tree : Tree α) : Option α := doMinimum tree.root

/-- `Maximum`'s descent (`bstree.go`), following `right` pointers. -/
def doMaximum : BTree α → Option α
  | BTree.nil => none
  | BTree.node v _ r =>
      match r with
      | BTree.nil => some v
      | BTree.node w lr rr => doMaximum (BTree.node w lr rr)

/-- `Maximum` (`bstree.go`). -/
def Tree.Maximum (tree : Tree α) : Option α := doMaximum tree.root

/-- `doDepth` (`bstree.go`): `0` at nil, otherwise one more than the
larger child depth (the Go code picks the branch with an `if`). -/
def doDepth : BTree α → Nat
  | BTree.nil => 0
  | BTree.node _ l r =>
      let left := doDepth l
      let right := doDepth r
      if left > right then left + 1 else right + 1

/-- `Depth` (`bstree.go`). -/
def Tree.Depth (tree : Tree α) : Nat := doDepth tree.root

/-- Building a tree by a sequence of `Insert` calls from the empty tree
(`New`), keeping only the tree. -/
def insertList (smaller larger : α → α → Bool) (values : List α) : Tree α :=
  values.foldl (fun t v => (t.Insert v).1) (New smaller larger)

/-- `doCompleteTree` (test file): insert the midpoint of `[b, e]`, then
recursively fill the left half, then the right half.  Go's `int` division
truncates toward zero while Lean's `Int` division floors, but every call
reachable from `CompleteTree` has `1 ≤ b`, where the two agree. -/
def doCompleteTree (tree : Tree Int) (b e : Int) : Tree Int :=
  if b > e then tree
  else
    let mid := (b + e) / 2
    let t1 := (tree.Insert mid).1
    let t2 := doCompleteTree t1 b (mid - 1)
    doCompleteTree t2 (mid + 1) e
termination_by (e + 1 - b).toNat
decreasing_by
· omega
· omega

/-- `CompleteTree` (test file): build from the integer range `1..count`
by midpoint recursion, starting from the empty integer tree. -/
def CompleteTree (count : Int) : Tree Int :=
  doCompleteTree (New IntSmaller IntLarger) 1 count

/-- The subtree produced by an insertion attempt, as a total function on
possibly-nil subtrees: `Insert` gives a nil root a fresh node directly,
and `doInsert` gives a nil child a fresh node before recursing into it,
so both follow this one shape function. -/
def insB (smaller larger : α → α → Bool) (t : BTree α) (value : α) : BTree α :=
  match t with
  | BTree.nil => BTree.node value BTree.nil BTree.nil
  | BTree.node w l r => (doInsert smaller larger (BTree.node w l r) value).1

/-- The success flag of an insertion attempt as its own recursion: a
missing slot accepts the value, a duplicate stops the descent. -/
def insOk (smaller larger : α → α → Bool) : BTree α → α → Bool
  | BTree.nil, _ => true
  | BTree.node w l r, v =>
      if smaller v w then insOk smaller larger l v
      else if larger v w then insOk smaller larger r v
      else false

/-- `doCompleteTree`'s effect on the root subtree alone: insert the
midpoint, fill the left half, fill the right half. -/
def buildB (t : BTree Int) (b e : Int) : BTree Int :=
  if b > e then t
  else
    let mid := (b + e) / 2
    buildB (buildB (insB IntSmaller IntLarger t mid) b (mid - 1)) (mid + 1) e
termination_by (e + 1 - b).toNat
decreasing_by
· omega
· omega

/-- The perfectly balanced search tree on the integer interval `[b, e]`:
midpoint at the root, balanced halves as children. -/
def balTree (b e : Int) : BTree Int :=
  if b > e then BTree.nil
  else
    BTree.node ((b + e) / 2)
      (balTree b ((b + e) / 2 - 1))
      (balTree ((b + e) / 2 + 1) e)
termination_by (e + 1 - b).toNat
decreasing_by
· omega
· omega

/-- Building a tree by a sequence of `Insert` calls while counting the
calls that returned `true`. -/
def insertCount (smaller larger : α → α → Bool) (values : List α) :
    Tree α × Nat :=
  values.foldl
    (fun acc v =>
      ((acc.1.Insert v).1, acc.2 + (if (acc.1.Insert v).2 then 1 else 0)))
    (New smaller larger, 0)

/-- The root a sequence of `Insert` calls leaves behind, as a fold of the
subtree-shape function `insB` over the inserted values. -/
def insFold (smaller larger : α → α → Bool) (values : List α) : BTree α :=
  values.foldl (insB smaller larger) BTree.nil

/-- Specification-level insertion, written from the spec's words:
"walks from the root: at each node, if `isSmaller(value, node.value)`
descend left; if `isSmaller` is false but `isLarger(value, node.value)`
descend right; if neither holds ... no insertion occurs"; "when a descent
reaches a missing child slot, a new node is created there".  `none` means
the descent found a duplicate; `some t2` is the tree with the new node at
the missing slot the descent reached. -/
def insertSpec (smaller larger : α → α → Bool) : BTree α → α → Option (BTree α)
  | BTree.nil, v => some (BTree.node v BTree.nil BTree.nil)
  | BTree.node w l r, v =>
      if smaller v w then
        (insertSpec smaller larger l v).map (fun l2 => BTree.node w l2 r)
      else if larger v w then
        (insertSpec smaller larger r v).map (fun r2 => BTree.node w l r2)
      else none

/-- The spec's ordering invariant: every value in a left subtree compares
smaller than the node's value and every value in a right subtree larger
(expressed through `smaller` via the consistency `larger a b = smaller b a`). -/
def Inv (smaller : α → α → Bool) : BTree α → Prop
  | BTree.nil => True
  | BTree.node v l r =>
      (∀ x ∈ doInOrder l, smaller x v = true) ∧
      (∀ x ∈ doInOrder r, smaller v x = true) ∧
      Inv smaller l ∧ Inv smaller r

/-! ### Structural lemmas about insertion -/

theorem insB_node (smaller larger : α → α → Bool) (w : α) (l r : BTree α) (v : α) :
    insB smaller larger (BTree.node w l r) v =
      if smaller v w then BTree.node w (insB smaller larger l v) r
      else if larger v w then BTree.node w l (insB smaller larger r v)
      else BTree.node w l r := by
  cases l <;> cases r <;> simp only [insB, doInsert]
  all_goals
    split
    · rfl
    · split <;> rfl

theorem doInsert_eq_of_ne_nil (smaller larger : α → α → Bool) (v : α) :
    ∀ t : BTree α, t ≠ BTree.nil →
      doInsert smaller larger t v =
        (insB smaller larger t v, insOk smaller larger t v) := by
  intro t
  induction t with
  | nil => intro h; exact absurd rfl h
  | node w l r ihl ihr =>
    intro _
    rw [insB_node, insOk]
    rw [doInsert.eq_def]
    by_cases hs : smaller v w = true
    · cases l with
      | nil => simp [hs, insB, insOk]
      | node wl ll rl => simp [hs, ihl (by simp)]
    · by_cases hl : larger v w = true
      · cases r with
        | nil => simp [hs, hl, insB, insOk]
        | node wr lr rr => simp [hs, hl, ihr (by simp)]
      · simp [hs, hl]

theorem doInsert_node (smaller larger : α → α → Bool) (w : α) (l r : BTree α) (v : α) :
    doInsert smaller larger (BTree.node w l r) v =
      (insB smaller larger (BTree.node w l r) v,
       insOk smaller larger (BTree.node w l r) v) :=
  doInsert_eq_of_ne_nil smaller larger v (BTree.node w l r) (by simp)

theorem insB_ne_nil (smaller larger : α → α → Bool) (t : BTree α) (v : α) :
    insB smaller larger t v ≠ BTree.nil := by
  cases t with
  | nil => simp [insB]
  | node w l r =>
    rw [insB_node]
    split
    · simp
    · split <;> simp

theorem insB_of_not_ok (smaller larger : α → α → Bool) (t : BTree α) (v : α)
    (h : insOk smaller larger t v = false) :
    insB smaller larger t v = t := by
  induction t with
  | nil => simp [insOk] at h
  | node w l r ihl ihr =>
    rw [insB_node]
    rw [insOk] at h
    split
    · next hs => rw [ihl (by simpa [hs] using h)]
    · split
      · next hs hl => rw [ihr (by simp_all)]
      · rfl

theorem bcount_insB (smaller larger : α → α → Bool) (t : BTree α) (v : α) :
    bcount (insB smaller larger t v) =
      bcount t + (if insOk smaller larger t v then 1 else 0) := by
  induction t with
  | nil => simp [insB, insOk, bcount]
  | node w l r ihl ihr =>
    rw [insB_node, insOk]
    split
    · simp only [bcount, ihl]; split <;> omega
    · split
      · simp only [bcount, ihr]; split <;> omega
      · simp

theorem Insert_eq (t : Tree α) (v : α) :
    t.Insert v =
      ({ t with root := insB t.smaller t.larger t.root v,
                size := t.size +
                  (if insOk t.smaller t.larger t.root v then 1 else 0) },
       insOk t.smaller t.larger t.root v) := by
  cases h : t.root with
  | nil => simp [Tree.Insert, h, insB, insOk]
  | node w l r =>
    simp only [Tree.Insert, h, doInsert_node]
    by_cases hok : insOk t.smaller t.larger (BTree.node w l r) v = true
    · simp [hok]
    · simp only [Bool.not_eq_true] at hok
      simp [hok]

theorem Insert_fst_smaller (t : Tree α) (v : α) :
    ((t.Insert v).1).smaller = t.smaller := by rw [Insert_eq]

theorem Insert_fst_larger (t : Tree α) (v : α) :
    ((t.Insert v).1).larger = t.larger := by rw [Insert_eq]

theorem Insert_fst_root (t : Tree α) (v : α) :
    ((t.Insert v).1).root = insB t.smaller t.larger t.root v := by rw [Insert_eq]

theorem Insert_fst_size (t : Tree α) (v : α) :
    ((t.Insert v).1).size = t.size + (if (t.Insert v).2 then 1 else 0) := by
  rw [Insert_eq]

theorem Insert_snd (t : Tree α) (v : α) :
    (t.Insert v).2 = insOk t.smaller t.larger t.root v := by rw [Insert_eq]

theorem foldl_Insert_spec (smaller larger : α → α → Bool) (vs : List α) :
    ∀ t : Tree α, t.smaller = smaller → t.larger = larger →
      (vs.foldl (fun a v => (a.Insert v).1) t).smaller = smaller ∧
      (vs.foldl (fun a v => (a.Insert v).1) t).larger = larger ∧
      (vs.foldl (fun a v => (a.Insert v).1) t).root =
        vs.foldl (insB smaller larger) t.root := by
  induction vs with
  | nil => intro t hs hl; exact ⟨hs, hl, rfl⟩
  | cons v vs ih =>
    intro t hs hl
    simp only [List.foldl_cons]
    have h := ih ((t.Insert v).1)
      (by rw [Insert_fst_smaller, hs]) (by rw [Insert_fst_larger, hl])
    refine ⟨h.1, h.2.1, ?_⟩
    rw [h.2.2, Insert_fst_root, hs, hl]

theorem insertList_root (smaller larger : α → α → Bool) (vs : List α) :
    (insertList smaller larger vs).root = insFold smaller larger vs :=
  (foldl_Insert_spec smaller larger vs (New smaller larger) rfl rfl).2.2

theorem insertList_smaller (smaller larger : α → α → Bool) (vs : List α) :
    (insertList smaller larger vs).smaller = smaller :=
  (foldl_Insert_spec smaller larger vs (New smaller larger) rfl rfl).1

theorem insertList_larger (smaller larger : α → α → Bool) (vs : List α) :
    (insertList smaller larger vs).larger = larger :=
  (foldl_Insert_spec smaller larger vs (New smaller larger) rfl rfl).2.1

theorem insertCount_spec (smaller larger : α → α → Bool) (vs : List α) :
    ∀ (t : Tree α) (n : Nat),
      (vs.foldl
        (fun acc v =>
          ((acc.1.Insert v).1, acc.2 + (if (acc.1.Insert v).2 then 1 else 0)))
        (t, n)).1 =
        vs.foldl (fun a v => (a.Insert v).1) t ∧
      (vs.foldl
        (fun acc v =>
          ((acc.1.Insert v).1, acc.2 + (if (acc.1.Insert v).2 then 1 else 0)))
        (t, n)).1.size + n =
        t.size +
          (vs.foldl
            (fun acc v =>
              ((acc.1.Insert v).1,
               acc.2 + (if (acc.1.Insert v).2 then 1 else 0)))
            (t, n)).2 := by
  induction vs with
  | nil => intro t n; exact ⟨rfl, rfl⟩
  | cons v vs ih =>
    intro t n
    simp only [List.foldl_cons]
    have h := ih ((t.Insert v).1) (n + (if (t.Insert v).2 then 1 else 0))
    refine ⟨h.1, ?_⟩
    have hsz := Insert_fst_size t v
    omega

theorem size_eq_bcount_foldl (smaller larger : α → α → Bool) (vs : List α) :
    ∀ t : Tree α, t.size = bcount t.root →
      (vs.foldl (fun a v => (a.Insert v).1) t).size =
        bcount (vs.foldl (fun a v => (a.Insert v).1) t).root := by
  induction vs with
  | nil => intro t h; exact h
  | cons v vs ih =>
    intro t h
    simp only [List.foldl_cons]
    refine ih ((t.Insert v).1) ?_
    rw [Insert_fst_size, Insert_fst_root, Insert_snd, bcount_insB, h]

/-- **C2.** For every sequence of `Insert` calls starting from the empty
tree, `Size()` equals the number of `Insert` calls that returned `true`,
and equals the number of nodes reachable from the root; a single `Insert`
changes the size by one exactly when it returns `true`, so an `Insert`
that returns `false` leaves the size unchanged. -/
theorem size_invariant (smaller larger : α → α → Bool) (vs : List α) :
    (insertList smaller larger vs).Size = (insertCount smaller larger vs).2 ∧
    (insertList smaller larger vs).Size =
      bcount (insertList smaller larger vs).root ∧
    ∀ (t : Tree α) (v : α),
      ((t.Insert v).1).Size = t.Size + (if (t.Insert v).2 then 1 else 0) := by
  refine ⟨?_, ?_, ?_⟩
  · obtain ⟨h1, h2⟩ := insertCount_spec smaller larger vs (New smaller larger) 0
    have h0 : (New smaller larger : Tree α).size = 0 := rfl
    simp only [Tree.Size, insertList, insertCount]
    rw [← h1]
    omega
  · exact size_eq_bcount_foldl smaller larger vs (New smaller larger) rfl
  · intro t v
    exact Insert_fst_size t v

theorem insertSpec_eq (smaller larger : α → α → Bool) (t : BTree α) (v : α) :
    insertSpec smaller larger t v =
      if insOk smaller larger t v then some (insB smaller larger t v)
      else none := by
  induction t with
  | nil => simp [insertSpec, insOk, insB]
  | node w l r ihl ihr =>
    rw [insertSpec.eq_def, insOk, insB_node]
    by_cases hs : smaller v w = true
    · by_cases hok : insOk smaller larger l v = true <;> simp [hs, hok, ihl]
    · by_cases hl : larger v w = true
      · by_cases hok : insOk smaller larger r v = true <;>
          simp [hs, hl, hok, ihr]
      · simp [hs, hl]

/-- **C3.** `Insert` on an empty tree makes the value the root, increments
the size and returns `true`; otherwise it refines the spec's descent:
where the descent reaches a missing child slot a node is created there,
the size increments and `Insert` returns `true`, and where some node
compares neither-smaller-nor-larger the tree is returned unchanged
(structure and size) with `false`. -/
theorem insert_refines_spec (t : Tree α) (v : α) :
    t.Insert v =
      (match insertSpec t.smaller t.larger t.root v with
       | some r2 => ({ t with root := r2, size := t.size + 1 }, true)
       | none => (t, false)) := by
  rw [Insert_eq, insertSpec_eq]
  by_cases hok : insOk t.smaller t.larger t.root v = true
  · simp [hok]
  · simp only [Bool.not_eq_true] at hok
    simp [hok, insB_of_not_ok _ _ _ _ hok]

theorem doExists_eq_not_insOk (smaller larger : α → α → Bool) (t : BTree α) (v : α) :
    doExists smaller larger t v = !insOk smaller larger t v := by
  induction t with
  | nil => simp [doExists, insOk]
  | node w l r ihl ihr =>
    rw [doExists.eq_def, insOk]
    by_cases hs : smaller v w = true
    · simp [hs, ihl]
    · by_cases hl : larger v w = true <;> simp [hs, hl, ihr]

/-- **C4.** `Exists` returns `true` exactly when the spec's descent finds
a node comparing neither-smaller-nor-larger (that is, exactly when the
spec-level insertion `insertSpec` reaches no missing slot); it is a pure
function of the tree, so it never mutates it; on the empty tree it
returns `false`; and the concrete 20/10/30 scenario checks out, with the
re-insertion of 30 returning `false`. -/
theorem exists_found_characterization :
    (∀ (α : Type) (t : Tree α) (v : α),
        t.Exists v = (insertSpec t.smaller t.larger t.root v).isNone)
  ∧ (∀ (α : Type) (smaller larger : α → α → Bool) (v : α),
        (New smaller larger).Exists v = false)
  ∧ ((insertList IntSmaller IntLarger [20, 10, 30]).Exists 20 = true
     ∧ (insertList IntSmaller IntLarger [20, 10, 30]).Exists 50 = false
     ∧ (insertList IntSmaller IntLarger [20, 10, 30]).Exists 30 = true
     ∧ ((insertList IntSmaller IntLarger [20, 10, 30]).Insert 30).2 = false) := by
  refine ⟨?_, ?_, by decide, by decide, by decide, by decide⟩
  · intro α t v
    rw [Tree.Exists, doExists_eq_not_insOk, insertSpec_eq]
    by_cases hok : insOk t.smaller t.larger t.root v = true <;> simp [hok]
  · intro α smaller larger v
    simp [Tree.Exists, New, doExists]

/-- **C8.** `Traverse` with a traversal value that is not one of the four
recognized orders applies the visitor to nothing (the visit list is
empty); the tree is a pure value, unchanged by traversal. -/
theorem traverse_unrecognized_noop (t : Tree α) (traversal : Int)
    (h1 : traversal ≠ PreOrder) (h2 : traversal ≠ InOrder)
    (h3 : traversal ≠ PostOrder) (h4 : traversal ≠ LevelOrder) :
    t.Traverse traversal = [] := by
  simp [Tree.Traverse, h1, h2, h3, h4]

/-- Witness for C8 at the concrete unrecognized traversal value `0`. -/
theorem traverse_unrecognized_noop_witness :
    (New IntSmaller IntLarger).Traverse 0 = [] :=
  traverse_unrecognized_noop (New IntSmaller IntLarger) 0
    (by decide) (by decide) (by decide) (by decide)

/-! ### The search-tree invariant and the ordering of in-order visits -/

theorem mem_insB (smaller larger : α → α → Bool) (t : BTree α) (v x : α)
    (h : x ∈ doInOrder (insB smaller larger t v)) :
    x = v ∨ x ∈ doInOrder t := by
  induction t with
  | nil =>
    simp only [insB, doInOrder, List.nil_append, List.mem_singleton] at h
    exact Or.inl h
  | node w l r ihl ihr =>
    rw [insB_node] at h
    by_cases hs : smaller v w = true
    · rw [if_pos hs] at h
      simp only [doInOrder, List.mem_append, List.mem_cons] at h ⊢
      rcases h with h | h | h
      · rcases ihl h with h1 | h1
        · exact Or.inl h1
        · exact Or.inr (Or.inl h1)
      · exact Or.inr (Or.inr (Or.inl h))
      · exact Or.inr (Or.inr (Or.inr h))
    · by_cases hl : larger v w = true
      · rw [if_neg hs, if_pos hl] at h
        simp only [doInOrder, List.mem_append, List.mem_cons] at h ⊢
        rcases h with h | h | h
        · exact Or.inr (Or.inl h)
        · exact Or.inr (Or.inr (Or.inl h))
        · rcases ihr h with h1 | h1
          · exact Or.inl h1
          · exact Or.inr (Or.inr (Or.inr h1))
      · rw [if_neg hs, if_neg hl] at h
        exact Or.inr h

theorem mem_insB_self (smaller larger : α → α → Bool) (t : BTree α) (v x : α)
    (h : x ∈ doInOrder t) : x ∈ doInOrder (insB smaller larger t v) := by
  induction t with
  | nil => simp [doInOrder] at h
  | node w l r ihl ihr =>
    rw [insB_node]
    by_cases hs : smaller v w = true
    · rw [if_pos hs]
      simp only [doInOrder, List.mem_append, List.mem_cons] at h ⊢
      rcases h with h | h | h
      · exact Or.inl (ihl h)
      · exact Or.inr (Or.inl h)
      · exact Or.inr (Or.inr h)
    · by_cases hl : larger v w = true
      · rw [if_neg hs, if_pos hl]
        simp only [doInOrder, List.mem_append, List.mem_cons] at h ⊢
        rcases h with h | h | h
        · exact Or.inl h
        · exact Or.inr (Or.inl h)
        · exact Or.inr (Or.inr (ihr h))
      · rw [if_neg hs, if_neg hl]
        exact h

theorem mem_insB_total (smaller larger : α → α → Bool)
    (hcons : ∀ a b : α, larger a b = smaller b a)
    (htotal : ∀ a b : α, a ≠ b → smaller a b = true ∨ smaller b a = true)
    (t : BTree α) (v : α) : v ∈ doInOrder (insB smaller larger t v) := by
  induction t with
  | nil => simp [insB, doInOrder]
  | node w l r ihl ihr =>
    rw [insB_node]
    by_cases hs : smaller v w = true
    · rw [if_pos hs]
      simp only [doInOrder, List.mem_append, List.mem_cons]
      exact Or.inl ihl
    · by_cases hl : larger v w = true
      · rw [if_neg hs, if_pos hl]
        simp only [doInOrder, List.mem_append, List.mem_cons]
        exact Or.inr (Or.inr ihr)
      · have hvw : v = w := by
          by_contra hne
          rcases htotal v w hne with h | h
          · exact hs h
          · rw [hcons] at hl; exact hl h
        rw [if_neg hs, if_neg hl]
        simp [doInOrder, hvw]

theorem inv_insB (smaller larger : α → α → Bool)
    (hcons : ∀ a b : α, larger a b = smaller b a) (t : BTree α) (v : α)
    (hinv : Inv smaller t) : Inv smaller (insB smaller larger t v) := by
  induction t with
  | nil =>
    simp [insB, Inv, doInOrder]
  | node w l r ihl ihr =>
    obtain ⟨hL, hR, hl', hr'⟩ := hinv
    rw [insB_node]
    by_cases hs : smaller v w = true
    · rw [if_pos hs]
      refine ⟨?_, hR, ihl hl', hr'⟩
      intro x hx
      rcases mem_insB smaller larger l v x hx with rfl | hx
      · exact hs
      · exact hL x hx
    · by_cases hlg : larger v w = true
      · rw [if_neg hs, if_pos hlg]
        have hwv : smaller w v = true := by rw [← hcons]; exact hlg
        refine ⟨hL, ?_, hl', ihr hr'⟩
        intro x hx
        rcases mem_insB smaller larger r v x hx with rfl | hx
        · exact hwv
        · exact hR x hx
      · rw [if_neg hs, if_neg hlg]
        exact ⟨hL, hR, hl', hr'⟩

theorem pairwise_doInOrder (smaller : α → α → Bool)
    (htrans : ∀ a b c : α,
      smaller a b = true → smaller b c = true → smaller a c = true)
    (t : BTree α) (hinv : Inv smaller t) :
    (doInOrder t).Pairwise (fun a b => smaller a b = true) := by
  induction t with
  | nil => simp [doInOrder]
  | node w l r ihl ihr =>
    obtain ⟨hL, hR, hl', hr'⟩ := hinv
    rw [doInOrder, List.pairwise_append]
    refine ⟨ihl hl', ?_, ?_⟩
    · rw [List.pairwise_cons]
      exact ⟨hR, ihr hr'⟩
    · intro x hx y hy
      rcases List.mem_cons.mp hy with rfl | hy
      · exact hL x hx
      · exact htrans x w y (hL x hx) (hR y hy)

theorem inv_insFold (smaller larger : α → α → Bool)
    (hcons : ∀ a b : α, larger a b = smaller b a) (vs : List α) :
    Inv smaller (insFold smaller larger vs) := by
  have key : ∀ t : BTree α, Inv smaller t →
      Inv smaller (vs.foldl (insB smaller larger) t) := by
    induction vs with
    | nil => intro t h; exact h
    | cons v vs ih =>
      intro t h
      exact ih (insB smaller larger t v) (inv_insB smaller larger hcons t v h)
  exact key BTree.nil trivial

/-- **C1.** For every tree built from the empty tree by a sequence of
`Insert` calls whose predicates form a consistent strict ordering
(`smaller` transitive and `larger` the swap of `smaller`), `Traverse`
with `InOrder` visits the stored values in strictly ascending — in
particular non-decreasing — order per the predicates. -/
theorem traverse_inorder_sorted (smaller larger : α → α → Bool)
    (htrans : ∀ a b c : α,
      smaller a b = true → smaller b c = true → smaller a c = true)
    (hcons : ∀ a b : α, larger a b = smaller b a) (vs : List α) :
    ((insertList smaller larger vs).Traverse InOrder).Pairwise
      (fun a b => smaller a b = true) := by
  have hroot := insertList_root smaller larger vs
  have htrav : (insertList smaller larger vs).Traverse InOrder
      = doInOrder (insertList smaller larger vs).root := by
    simp [Tree.Traverse, InOrder, PreOrder]
  rw [htrav, hroot]
  exact pairwise_doInOrder smaller htrans
    (insFold smaller larger vs) (inv_insFold smaller larger hcons vs)

/-- Witness for C1 with the integer ordering and the 20/10/30 insertions. -/
theorem traverse_inorder_sorted_witness :
    ((insertList IntSmaller IntLarger [20, 10, 30]).Traverse InOrder).Pairwise
      (fun a b => IntSmaller a b = true) :=
  traverse_inorder_sorted IntSmaller IntLarger
    (fun a b c hab hbc => by
      simp only [IntSmaller, decide_eq_true_eq] at hab hbc ⊢
      omega)
    (fun a b => rfl)
    [20, 10, 30]

/-! ### Minimum / Maximum against the in-order visit sequence -/

theorem doMinimum_eq_head (t : BTree α) :
    doMinimum t = (doInOrder t).head? := by
  induction t with
  | nil => rfl
  | node v l r ihl ihr =>
    cases l with
    | nil => simp [doMinimum, doInOrder]
    | node wl ll rl =>
      have hne : doInOrder (BTree.node wl ll rl) ≠ [] := by simp [doInOrder]
      rw [doInOrder, List.head?_append_of_ne_nil _ hne, ← ihl]
      simp [doMinimum]

theorem doMaximum_eq_getLast (t : BTree α) :
    doMaximum t = (doInOrder t).getLast? := by
  induction t with
  | nil => rfl
  | node v l r ihl ihr =>
    cases r with
    | nil =>
      rw [doInOrder, List.getLast?_append_of_ne_nil _ (by simp)]
      simp [doMaximum, doInOrder]
    | node wr lr rr =>
      rw [doInOrder, List.getLast?_append_of_ne_nil _ (by simp)]
      rw [show v :: doInOrder (BTree.node wr lr rr)
            = [v] ++ doInOrder (BTree.node wr lr rr) from rfl]
      rw [List.getLast?_append_of_ne_nil _ (by simp [doInOrder]), ← ihr]
      simp [doMaximum]

/-- **C10.** On every non-empty tree built by `Insert` calls, `Minimum`
equals the first value `Traverse` visits with `InOrder` and `Maximum`
equals the last. -/
theorem min_max_eq_traverse_ends (smaller larger : α → α → Bool) (vs : List α)
    (hne : (insertList smaller larger vs).root ≠ BTree.nil) :
    (insertList smaller larger vs).Minimum =
      ((insertList smaller larger vs).Traverse InOrder).head? ∧
    (insertList smaller larger vs).Maximum =
      ((insertList smaller larger vs).Traverse InOrder).getLast? := by
  have htrav : (insertList smaller larger vs).Traverse InOrder
      = doInOrder (insertList smaller larger vs).root := by
    simp [Tree.Traverse, InOrder, PreOrder]
  rw [htrav]
  exact ⟨doMinimum_eq_head _, doMaximum_eq_getLast _⟩

/-- Witness for C10 on the concrete 20/10/30 integer tree. -/
theorem min_max_eq_traverse_ends_witness :
    (insertList IntSmaller IntLarger [20, 10, 30]).Minimum =
      ((insertList IntSmaller IntLarger [20, 10, 30]).Traverse InOrder).head? ∧
    (insertList IntSmaller IntLarger [20, 10, 30]).Maximum =
      ((insertList IntSmaller IntLarger [20, 10, 30]).Traverse InOrder).getLast? :=
  min_max_eq_traverse_ends IntSmaller IntLarger [20, 10, 30] (by decide)

theorem foldl_insB_ne_nil (smaller larger : α → α → Bool) (vs : List α) :
    ∀ t : BTree α, t ≠ BTree.nil →
      vs.foldl (insB smaller larger) t ≠ BTree.nil := by
  induction vs with
  | nil => intro t h; exact h
  | cons v vs ih =>
    intro t h
    exact ih (insB smaller larger t v) (insB_ne_nil smaller larger t v)

theorem mem_foldl_insB (smaller larger : α → α → Bool)
    (hcons : ∀ a b : α, larger a b = smaller b a)
    (htotal : ∀ a b : α, a ≠ b → smaller a b = true ∨ smaller b a = true)
    (vs : List α) :
    ∀ (t : BTree α) (x : α),
      x ∈ doInOrder (vs.foldl (insB smaller larger) t) ↔
        x ∈ doInOrder t ∨ x ∈ vs := by
  induction vs with
  | nil => intro t x; simp
  | cons v vs ih =>
    intro t x
    rw [List.foldl_cons, ih]
    constructor
    · rintro (h | h)
      · rcases mem_insB smaller larger t v x h with rfl | h1
        · exact Or.inr (List.mem_cons_self _ _)
        · exact Or.inl h1
      · exact Or.inr (List.mem_cons_of_mem v h)
    · rintro (h | h)
      · exact Or.inl (mem_insB_self smaller larger t v x h)
      · rcases List.mem_cons.mp h with rfl | h1
        · exact Or.inl (mem_insB_total smaller larger hcons htotal t x)
        · exact Or.inr h1

theorem pairwise_head_le (R : α → α → Prop) (l : List α) (h : l.Pairwise R)
    (a : α) (ha : l.head? = some a) (x : α) (hx : x ∈ l) (hne : x ≠ a) :
    R a x := by
  cases l with
  | nil => simp at ha
  | cons b l =>
    simp only [List.head?_cons, Option.some_inj] at ha
    subst ha
    rcases List.mem_cons.mp hx with rfl | hx
    · exact absurd rfl hne
    · exact (List.pairwise_cons.mp h).1 x hx

theorem pairwise_getLast_ge (R : α → α → Prop) (l : List α) (h : l.Pairwise R)
    (a : α) (ha : l.getLast? = some a) (x : α) (hx : x ∈ l) (hne : x ≠ a) :
    R x a := by
  have h' : l.reverse.Pairwise (fun a b => R b a) :=
    List.pairwise_reverse.mpr h
  have ha' : l.reverse.head? = some a := by rw [List.head?_reverse]; exact ha
  exact pairwise_head_le (fun a b => R b a) l.reverse h' a ha' x
    (by simpa using hx) hne

/-- **C5.** `Minimum` and `Maximum` return the explicit empty result
(`none`) on the empty tree; on a tree built by inserting values of which
`m` is the least and `M` the greatest under a consistent strict ordering
(transitive, asymmetric, total on distinct values, with `larger` the swap
of `smaller`), `Minimum` returns `m` and `Maximum` returns `M`. -/
theorem minimum_maximum_extrema (smaller larger : α → α → Bool)
    (htrans : ∀ a b c : α,
      smaller a b = true → smaller b c = true → smaller a c = true)
    (hasymm : ∀ a b : α, smaller a b = true → smaller b a = false)
    (hcons : ∀ a b : α, larger a b = smaller b a)
    (htotal : ∀ a b : α, a ≠ b → smaller a b = true ∨ smaller b a = true)
    (vs : List α) (m M : α)
    (hm : m ∈ vs) (hmLeast : ∀ x ∈ vs, x ≠ m → smaller m x = true)
    (hM : M ∈ vs) (hMGreat : ∀ x ∈ vs, x ≠ M → smaller x M = true) :
    ((New smaller larger : Tree α).Minimum = none ∧
     (New smaller larger : Tree α).Maximum = none) ∧
    (insertList smaller larger vs).Minimum = some m ∧
    (insertList smaller larger vs).Maximum = some M := by
  have hvs : vs ≠ [] := List.ne_nil_of_mem hm
  have hroot := insertList_root smaller larger vs
  have hne : insFold smaller larger vs ≠ BTree.nil := by
    cases vs with
    | nil => exact absurd rfl hvs
    | cons v vs =>
      exact foldl_insB_ne_nil smaller larger vs _
        (insB_ne_nil smaller larger BTree.nil v)
  have hpair := pairwise_doInOrder smaller htrans _
    (inv_insFold smaller larger hcons vs)
  have hmem : ∀ x : α, x ∈ doInOrder (insFold smaller larger vs) ↔ x ∈ vs := by
    intro x
    have h := mem_foldl_insB smaller larger hcons htotal vs BTree.nil x
    simpa [insFold, doInOrder] using h
  have hLne : doInOrder (insFold smaller larger vs) ≠ [] := by
    cases htt : insFold smaller larger vs with
    | nil => exact absurd htt hne
    | node w l r => simp [doInOrder]
  refine ⟨⟨rfl, rfl⟩, ?_, ?_⟩
  · obtain ⟨a, ha⟩ : ∃ a, (doInOrder (insFold smaller larger vs)).head? = some a := by
      cases hL : doInOrder (insFold smaller larger vs) with
      | nil => exact absurd hL hLne
      | cons b L => exact ⟨b, rfl⟩
    have havs : a ∈ vs := (hmem a).mp (List.mem_of_mem_head? (by simp [ha]))
    have ham : a = m := by
      by_contra hne2
      have h1 : smaller m a = true := hmLeast a havs hne2
      have h2 : smaller a m = true :=
        pairwise_head_le _ _ hpair a ha m ((hmem m).mpr hm)
          (fun hh => hne2 hh.symm)
      have h3 := hasymm m a h1
      simp [h2] at h3
    show doMinimum (insertList smaller larger vs).root = some m
    rw [hroot, doMinimum_eq_head, ha, ham]
  · obtain ⟨a, ha⟩ : ∃ a, (doInOrder (insFold smaller larger vs)).getLast? = some a := by
      cases hL : (doInOrder (insFold smaller larger vs)).getLast? with
      | none => exact absurd (List.getLast?_eq_none_iff.mp hL) hLne
      | some b => exact ⟨b, rfl⟩
    have havs : a ∈ vs := (hmem a).mp (List.mem_of_mem_getLast? (by simp [ha]))
    have ham : a = M := by
      by_contra hne2
      have h1 : smaller a M = true := hMGreat a havs hne2
      have h2 : smaller M a = true :=
        pairwise_getLast_ge _ _ hpair a ha M ((hmem M).mpr hM)
          (fun hh => hne2 hh.symm)
      have h3 := hasymm a M h1
      simp [h2] at h3
    show doMaximum (insertList smaller larger vs).root = some M
    rw [hroot, doMaximum_eq_getLast, ha, ham]

/-- Witness for C5 on the 20/10/30 integer tree, whose least value is 10
and greatest is 30. -/
theorem minimum_maximum_extrema_witness :
    ((New IntSmaller IntLarger : Tree Int).Minimum = none ∧
     (New IntSmaller IntLarger : Tree Int).Maximum = none) ∧
    (insertList IntSmaller IntLarger [20, 10, 30]).Minimum = some 10 ∧
    (insertList IntSmaller IntLarger [20, 10, 30]).Maximum = some 30 :=
  minimum_maximum_extrema IntSmaller IntLarger
    (fun a b c hab hbc => by
      simp only [IntSmaller, decide_eq_true_eq] at hab hbc ⊢
      omega)
    (fun a b hab => by
      simp only [IntSmaller, decide_eq_true_eq] at hab
      simp only [IntSmaller, decide_eq_false_iff_not]
      omega)
    (fun a b => rfl)
    (fun a b hab => by
      simp only [IntSmaller, decide_eq_true_eq]
      omega)
    [20, 10, 30] 10 30 (by decide) (by decide) (by decide) (by decide)

/-! ### The concrete complete tree on 1..15 and the depth formula -/

theorem traverse_preOrder (t : Tree α) :
    t.Traverse PreOrder = doPreOrder t.root := by
  simp [Tree.Traverse]

theorem traverse_inOrder (t : Tree α) :
    t.Traverse InOrder = doInOrder t.root := by
  simp [Tree.Traverse, InOrder, PreOrder]

theorem traverse_postOrder (t : Tree α) :
    t.Traverse PostOrder = doPostOrder t.root := by
  simp [Tree.Traverse, PostOrder, PreOrder, InOrder]

theorem traverse_levelOrder (t : Tree α) :
    t.Traverse LevelOrder = doLevelOrder t.root := by
  simp [Tree.Traverse, LevelOrder, PreOrder, InOrder, PostOrder]

theorem completeTree15_root :
    (CompleteTree 15).root =
      BTree.node 8
        (BTree.node 4
          (BTree.node 2
            (BTree.node 1 BTree.nil BTree.nil)
            (BTree.node 3 BTree.nil BTree.nil))
          (BTree.node 6
            (BTree.node 5 BTree.nil BTree.nil)
            (BTree.node 7 BTree.nil BTree.nil)))
        (BTree.node 12
          (BTree.node 10
            (BTree.node 9 BTree.nil BTree.nil)
            (BTree.node 11 BTree.nil BTree.nil))
          (BTree.node 14
            (BTree.node 13 BTree.nil BTree.nil)
            (BTree.node 15 BTree.nil BTree.nil))) := by
  simp [CompleteTree, doCompleteTree, New, Tree.Insert, doInsert,
        IntSmaller, IntLarger]

/-- **C7.** The complete tree on the integers 1..15 built by midpoint
recursion is traversed exactly in the four sequences the spec lists:
pre-order, ascending in-order, post-order, and breadth-first
level-order. -/
theorem completeTree15_traversals :
    (CompleteTree 15).Traverse PreOrder
        = [8, 4, 2, 1, 3, 6, 5, 7, 12, 10, 9, 11, 14, 13, 15] ∧
    (CompleteTree 15).Traverse InOrder
        = [1, 2, 3, 4, 5, 6, 7, 8, 9, 10, 11, 12, 13, 14, 15] ∧
    (CompleteTree 15).Traverse PostOrder
        = [1, 3, 2, 5, 7, 6, 4, 9, 11, 10, 13, 15, 14, 12, 8] ∧
    (CompleteTree 15).Traverse LevelOrder
        = [8, 4, 12, 2, 6, 10, 14, 1, 3, 5, 7, 9, 11, 13, 15] := by
  refine ⟨?_, ?_, ?_, ?_⟩
  · rw [traverse_preOrder, completeTree15_root]; decide
  · rw [traverse_inOrder, completeTree15_root]; decide
  · rw [traverse_postOrder, completeTree15_root]; decide
  · rw [traverse_levelOrder, completeTree15_root]
    simp [doLevelOrder, doLevelOrderLoop, enq]


theorem doDepth_node (v : α) (l r : BTree α) :
    doDepth (BTree.node v l r) =
      if doDepth l > doDepth r then doDepth l + 1 else doDepth r + 1 := rfl

theorem doCompleteTree_of_le (tree : Tree Int) (b e : Int) (h : ¬b > e) :
    doCompleteTree tree b e =
      doCompleteTree
        (doCompleteTree (tree.Insert ((b + e) / 2)).1 b ((b + e) / 2 - 1))
        ((b + e) / 2 + 1) e := by
  rw [doCompleteTree.eq_def, if_neg h]

theorem buildB_of_le (t : BTree Int) (b e : Int) (h : ¬b > e) :
    buildB t b e =
      buildB
        (buildB (insB IntSmaller IntLarger t ((b + e) / 2)) b ((b + e) / 2 - 1))
        ((b + e) / 2 + 1) e := by
  rw [buildB.eq_def, if_neg h]

theorem balTree_of_le (b e : Int) (h : ¬b > e) :
    balTree b e =
      BTree.node ((b + e) / 2)
        (balTree b ((b + e) / 2 - 1))
        (balTree ((b + e) / 2 + 1) e) := by
  rw [balTree.eq_def, if_neg h]

theorem doCompleteTree_fields (tree : Tree Int) (b e : Int) :
    (doCompleteTree tree b e).smaller = tree.smaller ∧
    (doCompleteTree tree b e).larger = tree.larger := by
  induction tree, b, e using doCompleteTree.induct with
  | case1 tree b e h =>
    rw [doCompleteTree.eq_def, if_pos h]; exact ⟨rfl, rfl⟩
  | case2 tree b e h mid t1 t2 ihA ihB ihC =>
    have ihC' :
        (doCompleteTree (doCompleteTree (tree.Insert ((b + e) / 2)).1 b
            ((b + e) / 2 - 1)) ((b + e) / 2 + 1) e).smaller
          = (doCompleteTree (tree.Insert ((b + e) / 2)).1 b
              ((b + e) / 2 - 1)).smaller ∧
        (doCompleteTree (doCompleteTree (tree.Insert ((b + e) / 2)).1 b
            ((b + e) / 2 - 1)) ((b + e) / 2 + 1) e).larger
          = (doCompleteTree (tree.Insert ((b + e) / 2)).1 b
              ((b + e) / 2 - 1)).larger := ihC
    rw [doCompleteTree_of_le tree b e h]
    constructor
    · rw [ihC'.1, ihB.1, Insert_fst_smaller]
    · rw [ihC'.2, ihB.2, Insert_fst_larger]

theorem doCompleteTree_root (tree : Tree Int) (b e : Int) :
    tree.smaller = IntSmaller → tree.larger = IntLarger →
    (doCompleteTree tree b e).root = buildB tree.root b e := by
  induction tree, b, e using doCompleteTree.induct with
  | case1 tree b e h =>
    intro hs hl
    rw [doCompleteTree.eq_def, if_pos h, buildB.eq_def, if_pos h]
  | case2 tree b e h mid t1 t2 ihA ihB ihC =>
    intro hs hl
    have ihC' :
        (doCompleteTree (tree.Insert ((b + e) / 2)).1 b
            ((b + e) / 2 - 1)).smaller = IntSmaller →
        (doCompleteTree (tree.Insert ((b + e) / 2)).1 b
            ((b + e) / 2 - 1)).larger = IntLarger →
        (doCompleteTree (doCompleteTree (tree.Insert ((b + e) / 2)).1 b
            ((b + e) / 2 - 1)) ((b + e) / 2 + 1) e).root
          = buildB (doCompleteTree (tree.Insert ((b + e) / 2)).1 b
              ((b + e) / 2 - 1)).root ((b + e) / 2 + 1) e := ihC
    have hs1 : ((tree.Insert ((b + e) / 2)).1).smaller = IntSmaller := by
      rw [Insert_fst_smaller, hs]
    have hl1 : ((tree.Insert ((b + e) / 2)).1).larger = IntLarger := by
      rw [Insert_fst_larger, hl]
    have hf := doCompleteTree_fields ((tree.Insert ((b + e) / 2)).1) b
      ((b + e) / 2 - 1)
    rw [doCompleteTree_of_le tree b e h, buildB_of_le tree.root b e h]
    rw [ihC' (by rw [hf.1, hs1]) (by rw [hf.2, hl1]), ihB hs1 hl1,
        Insert_fst_root, hs, hl]

theorem buildB_left (t : BTree Int) (b e : Int) :
    ∀ (v : Int) (L R : BTree Int), t = BTree.node v L R → e < v →
      buildB t b e = BTree.node v (buildB L b e) R := by
  induction t, b, e using buildB.induct with
  | case1 t b e h =>
    intro v L R ht hv
    rw [buildB.eq_def, if_pos h, buildB.eq_def, if_pos h, ht]
  | case2 t b e h mid ihA ihB ihC =>
    intro v L R ht hv
    subst ht
    have ihC' :
        ∀ (v2 : Int) (L2 R2 : BTree Int),
          buildB (insB IntSmaller IntLarger (BTree.node v L R) ((b + e) / 2)) b
              ((b + e) / 2 - 1) = BTree.node v2 L2 R2 → e < v2 →
          buildB (buildB (insB IntSmaller IntLarger (BTree.node v L R)
              ((b + e) / 2)) b ((b + e) / 2 - 1)) ((b + e) / 2 + 1) e
            = BTree.node v2 (buildB L2 ((b + e) / 2 + 1) e) R2 := ihC
    have hsm : IntSmaller ((b + e) / 2) v = true := by
      simp only [IntSmaller, decide_eq_true_eq]; omega
    have h1 : insB IntSmaller IntLarger (BTree.node v L R) ((b + e) / 2)
        = BTree.node v (insB IntSmaller IntLarger L ((b + e) / 2)) R := by
      rw [insB_node, if_pos hsm]
    have h2 :
        buildB (insB IntSmaller IntLarger (BTree.node v L R) ((b + e) / 2)) b
            ((b + e) / 2 - 1)
          = BTree.node v
              (buildB (insB IntSmaller IntLarger L ((b + e) / 2)) b
                ((b + e) / 2 - 1)) R :=
      ihB v (insB IntSmaller IntLarger L ((b + e) / 2)) R h1 (by omega)
    have h3 := ihC' v
      (buildB (insB IntSmaller IntLarger L ((b + e) / 2)) b ((b + e) / 2 - 1))
      R h2 hv
    rw [buildB_of_le (BTree.node v L R) b e h, h3, buildB_of_le L b e h]

theorem buildB_right (t : BTree Int) (b e : Int) :
    ∀ (v : Int) (L R : BTree Int), t = BTree.node v L R → v < b →
      buildB t b e = BTree.node v L (buildB R b e) := by
  induction t, b, e using buildB.induct with
  | case1 t b e h =>
    intro v L R ht hv
    rw [buildB.eq_def, if_pos h, buildB.eq_def, if_pos h, ht]
  | case2 t b e h mid ihA ihB ihC =>
    intro v L R ht hv
    subst ht
    have ihC' :
        ∀ (v2 : Int) (L2 R2 : BTree Int),
          buildB (insB IntSmaller IntLarger (BTree.node v L R) ((b + e) / 2)) b
              ((b + e) / 2 - 1) = BTree.node v2 L2 R2 → v2 < (b + e) / 2 + 1 →
          buildB (buildB (insB IntSmaller IntLarger (BTree.node v L R)
              ((b + e) / 2)) b ((b + e) / 2 - 1)) ((b + e) / 2 + 1) e
            = BTree.node v2 L2 (buildB R2 ((b + e) / 2 + 1) e) := ihC
    have hsm : IntSmaller ((b + e) / 2) v = false := by
      simp only [IntSmaller, decide_eq_false_iff_not]; omega
    have hlg : IntLarger ((b + e) / 2) v = true := by
      simp only [IntLarger, decide_eq_true_eq]; omega
    have h1 : insB IntSmaller IntLarger (BTree.node v L R) ((b + e) / 2)
        = BTree.node v L (insB IntSmaller IntLarger R ((b + e) / 2)) := by
      rw [insB_node, if_neg (by simp [hsm]), if_pos hlg]
    have h2 :
        buildB (insB IntSmaller IntLarger (BTree.node v L R) ((b + e) / 2)) b
            ((b + e) / 2 - 1)
          = BTree.node v L
              (buildB (insB IntSmaller IntLarger R ((b + e) / 2)) b
                ((b + e) / 2 - 1)) :=
      ihB v L (insB IntSmaller IntLarger R ((b + e) / 2)) h1 hv
    have h3 := ihC' v L
      (buildB (insB IntSmaller IntLarger R ((b + e) / 2)) b ((b + e) / 2 - 1))
      h2 (by omega)
    rw [buildB_of_le (BTree.node v L R) b e h, h3, buildB_of_le R b e h]

theorem buildB_nil_eq_balTree (b e : Int) :
    buildB BTree.nil b e = balTree b e := by
  induction b, e using balTree.induct with
  | case1 b e h => rw [buildB.eq_def, if_pos h, balTree.eq_def, if_pos h]
  | case2 b e h ih1 ih2 =>
    have h1 : insB IntSmaller IntLarger BTree.nil ((b + e) / 2)
        = BTree.node ((b + e) / 2) BTree.nil BTree.nil := rfl
    have h2 : buildB (insB IntSmaller IntLarger BTree.nil ((b + e) / 2)) b
          ((b + e) / 2 - 1)
        = BTree.node ((b + e) / 2) (buildB BTree.nil b ((b + e) / 2 - 1))
            BTree.nil := by
      rw [h1]
      exact buildB_left _ _ _ _ _ _ rfl (by omega)
    have h3 : buildB (BTree.node ((b + e) / 2)
            (balTree b ((b + e) / 2 - 1)) BTree.nil) ((b + e) / 2 + 1) e
        = BTree.node ((b + e) / 2) (balTree b ((b + e) / 2 - 1))
            (buildB BTree.nil ((b + e) / 2 + 1) e) :=
      buildB_right _ _ _ _ _ _ rfl (by omega)
    rw [buildB_of_le BTree.nil b e h, h2, ih1, h3, ih2, balTree_of_le b e h]

theorem doDepth_balTree (b e : Int) :
    doDepth (balTree b e) = Nat.clog 2 ((e + 1 - b).toNat + 1) := by
  induction b, e using balTree.induct with
  | case1 b e h =>
    rw [balTree.eq_def, if_pos h]
    have h0 : (e + 1 - b).toNat = 0 := by omega
    rw [h0]
    simp [doDepth, Nat.clog]
  | case2 b e h ih1 ih2 =>
    rw [balTree_of_le b e h, doDepth_node, ih1, ih2]
    have hn : 1 ≤ (e + 1 - b).toNat := by omega
    have hL : ((b + e) / 2 - 1 + 1 - b).toNat = ((e + 1 - b).toNat - 1) / 2 := by
      omega
    have hR : (e + 1 - ((b + e) / 2 + 1)).toNat = (e + 1 - b).toNat / 2 := by
      omega
    rw [hL, hR]
    generalize (e + 1 - b).toNat = n at hn
    have hmono : Nat.clog 2 ((n - 1) / 2 + 1) ≤ Nat.clog 2 (n / 2 + 1) :=
      Nat.clog_mono_right 2 (by omega)
    rw [if_neg (by omega)]
    conv_rhs => rw [Nat.clog_of_two_le (by norm_num) (by omega)]
    have harg : n / 2 + 1 = (n + 1 + 2 - 1) / 2 := by omega
    rw [harg]

theorem completeTree_depth_all (S : Nat) :
    (CompleteTree (S : Int)).Depth = Nat.clog 2 (S + 1) := by
  have hr : (CompleteTree (S : Int)).root = buildB BTree.nil 1 (S : Int) :=
    doCompleteTree_root (New IntSmaller IntLarger) 1 (S : Int) rfl rfl
  show doDepth (CompleteTree (S : Int)).root = Nat.clog 2 (S + 1)
  rw [hr, buildB_nil_eq_balTree, doDepth_balTree]
  congr 1
  omega

/-- **C6.** For every tree built from the contiguous range `1..S` by the
midpoint-recursive construction, `Depth()` equals `ceil(log2(S + 1))`
(`Nat.clog 2 (S + 1)`); in particular the empty tree (`S = 0`) has
depth `0`. -/
theorem completeTree_depth_clog :
    (∀ S : Nat, (CompleteTree (S : Int)).Depth = Nat.clog 2 (S + 1)) ∧
    (CompleteTree 0).Depth = 0 := by
  refine ⟨completeTree_depth_all, ?_⟩
  have h0 := completeTree_depth_all 0
  simpa [Nat.clog] using h0

end BstreeVerify
